import Mathlib

/-!
Verification of the context-resolution engine of `config.py` (k8s-handle).

Shallow embedding conventions:
* Python strings are modelled as `Str := List Char`.
* YAML trees (`dict` / `list` / scalars) are modelled by the inductive `Node`.
* The process environment is a function `Str → Option Str`
  (`os.environ.get` returns `None` for unset variables).
* The filesystem read by `filesystem.load_yaml` (whose source is not part of
  this repository snapshot) is modelled from the spec as a finite table of
  parsed file trees.
* The strict-mode flag `settings.GET_ENVIRON_STRICT` is threaded as an
  explicit `Bool` parameter, and the reserved section name
  `settings.COMMON_SECTION_NAME` as an explicit `Str` parameter.
* Python raising `RuntimeError` / `KeyError` / `TypeError` / `AttributeError`
  is modelled with `Except Err`; possible non-termination of the recursive
  resolver is modelled with an explicit fuel parameter, where exhaustion
  yields the distinguished result `Err.outOfFuel` (the Python code has no
  fuel: `∀ fuel, … = outOfFuel` renders divergence, `∃ fuel, … = ok r`
  renders a terminating run with result `r`).
-/

/-- Python strings, modelled as lists of characters. -/
abbrev Str := List Char

/-- The character `{` (written via its code point so that braces never occur
inside string literals of this file). -/
def openB : Char := Char.ofNat 123

/-- The character `}`. -/
def closeB : Char := Char.ofNat 125

/-- The character `'` (single quote). -/
def quoteChar : Char := Char.ofNat 39

/-- The newline character. -/
def nlChar : Char := Char.ofNat 10

/-- Shorthand turning a Lean string literal into our `Str` model. -/
def strL (s : String) : Str := s.toList

/-- A YAML node: scalar (string / int / bool / null), sequence, or mapping.
Mappings are insertion-ordered association lists with string keys, mirroring
Python dicts. -/
inductive Node where
  | str (s : Str)
  | int (i : Int)
  | bool (b : Bool)
  | null
  | seq (xs : List Node)
  | map (kvs : List (Str × Node))

instance : Inhabited Node := ⟨Node.null⟩

mutual

/-- Structural (boolean) equality of nodes, mirroring Python `==` on the
parsed YAML values used by the source. -/
def Node.beq : Node → Node → Bool
  | .str a, .str b => decide (a = b)
  | .int a, .int b => decide (a = b)
  | .bool a, .bool b => decide (a = b)
  | .null, .null => true
  | .seq xs, .seq ys => Node.beqItems xs ys
  | .map xs, .map ys => Node.beqEntries xs ys
  | _, _ => false

def Node.beqItems : List Node → List Node → Bool
  | [], [] => true
  | x :: xs, y :: ys => Node.beq x y && Node.beqItems xs ys
  | _, _ => false

def Node.beqEntries : List (Str × Node) → List (Str × Node) → Bool
  | [], [] => true
  | (k, v) :: xs, (k', v') :: ys =>
      decide (k = k') && Node.beq v v' && Node.beqEntries xs ys
  | _, _ => false

end

/-- Induction principle for `Node` that provides hypotheses for the members
of nested lists. -/
theorem Node.inductionOn {P : Node → Prop}
    (hstr : ∀ s, P (.str s)) (hint : ∀ i, P (.int i))
    (hbool : ∀ b, P (.bool b)) (hnull : P .null)
    (hseq : ∀ xs, (∀ x ∈ xs, P x) → P (.seq xs))
    (hmap : ∀ kvs, (∀ kv ∈ kvs, P kv.2) → P (.map kvs)) :
    ∀ n, P n := by
  have main : ∀ N n, sizeOf n < N → P n := by
    intro N
    induction N with
    | zero => exact fun n hn => absurd hn (Nat.not_lt_zero _)
    | succ N ih =>
      intro n hn
      cases n with
      | str s => exact hstr s
      | int i => exact hint i
      | bool b => exact hbool b
      | null => exact hnull
      | seq xs =>
        refine hseq xs (fun x hx => ih x ?_)
        have h1 := List.sizeOf_lt_of_mem hx
        have h2 : sizeOf (Node.seq xs) = 1 + sizeOf xs := by simp
        omega
      | map kvs =>
        refine hmap kvs (fun kv hkv => ih kv.2 ?_)
        have h1 := List.sizeOf_lt_of_mem hkv
        have h2 : sizeOf kv.2 < sizeOf kv := by
          obtain ⟨k, v⟩ := kv
          simp
        have h3 : sizeOf (Node.map kvs) = 1 + sizeOf kvs := by simp
        omega
  exact fun n => main (sizeOf n + 1) n (Nat.lt_succ_self _)

theorem Node.beqItems_iff_of (xs : List Node)
    (ih : ∀ x ∈ xs, ∀ b, Node.beq x b = true ↔ x = b) :
    ∀ ys, Node.beqItems xs ys = true ↔ xs = ys := by
  induction xs with
  | nil => intro ys; cases ys <;> simp [Node.beqItems]
  | cons x xs ihx =>
    intro ys
    cases ys with
    | nil => simp [Node.beqItems]
    | cons y ys =>
      have hx := ih x (by simp) y
      have hxs := ihx (fun z hz b => ih z (by simp [hz]) b) ys
      simp only [Node.beqItems, Bool.and_eq_true, hx, hxs, List.cons.injEq]

theorem Node.beqEntries_iff_of (xs : List (Str × Node))
    (ih : ∀ kv ∈ xs, ∀ b, Node.beq kv.2 b = true ↔ kv.2 = b) :
    ∀ ys, Node.beqEntries xs ys = true ↔ xs = ys := by
  induction xs with
  | nil => intro ys; cases ys <;> simp [Node.beqEntries]
  | cons kv xs ihx =>
    intro ys
    cases ys with
    | nil => simp [Node.beqEntries]
    | cons kv' ys =>
      obtain ⟨k, v⟩ := kv
      obtain ⟨k', v'⟩ := kv'
      have hv := ih ⟨k, v⟩ (by simp) v'
      have hxs := ihx (fun z hz b => ih z (by simp [hz]) b) ys
      simp only [Node.beqEntries, Bool.and_eq_true, decide_eq_true_eq,
        List.cons.injEq, Prod.mk.injEq]
      rw [hv, hxs]

theorem Node.beq_iff : ∀ a b : Node, Node.beq a b = true ↔ a = b := by
  intro a
  induction a using Node.inductionOn with
  | hstr s => intro b; cases b <;> simp [Node.beq]
  | hint i => intro b; cases b <;> simp [Node.beq]
  | hbool v => intro b; cases b <;> simp [Node.beq]
  | hnull => intro b; cases b <;> simp [Node.beq]
  | hseq xs ih =>
    intro b
    cases b
    case seq ys =>
      simp only [Node.beq, Node.seq.injEq]
      exact Node.beqItems_iff_of xs ih ys
    all_goals simp [Node.beq]
  | hmap kvs ih =>
    intro b
    cases b
    case map ys =>
      simp only [Node.beq, Node.map.injEq]
      exact Node.beqEntries_iff_of kvs ih ys
    all_goals simp [Node.beq]

instance : DecidableEq Node :=
  fun a b => decidable_of_iff (Node.beq a b = true) (Node.beq_iff a b)

/-- The failures of the pipeline.  The first eight mirror the spec's error
taxonomy (all raised as `RuntimeError` in the source); `keyError`,
`typeError` and `attributeError` model bare Python exceptions escaping from
the source; `outOfFuel` is the fuel-exhaustion marker of the embedding. -/
inductive Err where
  | configEmpty
  | sectionNotFound (sect : Str)
  | reservedSectionRequested
  | infiniteIncludeLoop
  | missingEnvVarStrict (name : Str)
  | invalidKeyNames (names : List Str)
  | missingRequiredVars (names : List Str)
  | missingTemplatesOrKubectlKey
  | keyError (key : Str)
  | typeError
  | attributeError
  | outOfFuel
deriving DecidableEq

instance : Inhabited Err := ⟨Err.outOfFuel⟩

deriving instance DecidableEq for Except

@[simp] theorem Except.error_bind {α β : Type} (e : Err) (f : α → Except Err β) :
    (Except.error e >>= f) = Except.error e := rfl

@[simp] theorem Except.ok_bind {α β : Type} (a : α) (f : α → Except Err β) :
    (Except.ok a >>= f) = f a := rfl

@[simp] theorem Except.pure_eq_ok {α : Type} (a : α) :
    (pure a : Except Err α) = Except.ok a := rfl

@[simp] theorem Except.errMap {α β : Type} (e : Err) (f : α → β) :
    (f <$> (Except.error e : Except Err α)) = Except.error e := rfl

@[simp] theorem Except.okMap {α β : Type} (a : α) (f : α → β) :
    (f <$> (Except.ok a : Except Err α)) = Except.ok (f a) := rfl

example : (Node.str (strL "a")) ≠ Node.null := by decide

/-! ## The two marker grammars

`INCLUDE_RE  = {{\s?file\s?=\s?'(?P<file>[^']*)'\s?}}`, used via `re.match`
(anchored at the start of the string only — trailing characters are allowed).

`CUSTOM_ENV_RE = ^(?P<pre>.*){{\s*env\s*=\s*'(?P<env>[^']*)'\s*}}(?P<post>.*)$`,
used via `re.match`; the leading greedy `.*` selects the last position at
which the marker (followed by a valid tail) can match, `.` does not match a
newline, and `$` also matches just before a single trailing newline.

Both patterns are deterministic at a fixed start position, because each
optional/greedy whitespace run is followed by a character that is not
whitespace, and `[^']*` is followed by `'`; the parsers below exploit this. -/

/-- Python's `\s` on the ASCII range: space, tab, newline, carriage return,
vertical tab, form feed. -/
def isPySpace (c : Char) : Bool :=
  c = ' ' || c = Char.ofNat 9 || c = nlChar || c = Char.ofNat 13 ||
  c = Char.ofNat 11 || c = Char.ofNat 12

/-- Consume the literal characters `pat` from the front of `cs`. -/
def expects : Str → Str → Option Str
  | [], cs => some cs
  | _ :: _, [] => none
  | p :: ps, c :: cs => if c = p then expects ps cs else none

/-- `\s?` followed by a non-whitespace literal: consume at most one
whitespace character. -/
def optWs : Str → Str
  | [] => []
  | c :: cs => if isPySpace c then cs else c :: cs

/-- `\s*` followed by a non-whitespace literal: consume the whitespace run. -/
def skipWs (cs : Str) : Str := cs.dropWhile isPySpace

/-- `[^']*'`: the characters up to the next single quote, and the rest after
that quote; `none` if the quote never comes. -/
def readUntilQuote : Str → Option (Str × Str)
  | [] => none
  | c :: cs =>
    if c = quoteChar then some ([], cs)
    else
      match readUntilQuote cs with
      | some (e, r) => some (c :: e, r)
      | none => none

/-- `INCLUDE_RE.match(s)`: the file name captured by the include marker when
the marker pattern matches at the start of `s` (the rest of `s` is
unconstrained, as with `re.match`). -/
def parseInclude (s : Str) : Option Str := do
  let r1 ← expects [openB, openB] s
  let r2 ← expects (strL "file") (optWs r1)
  let r3 ← expects [Char.ofNat 61] (optWs r2)
  let r4 ← expects [quoteChar] (optWs r3)
  let (f, r5) ← readUntilQuote r4
  let _ ← expects [closeB, closeB] (optWs r5)
  pure f

/-- The part of `CUSTOM_ENV_RE` after the leading `.*`: `{{\s*env\s*=\s*'E'\s*}}`
matched at the start of `s`; yields the captured name and the rest of `s`. -/
def parseEnvMarkerAt (s : Str) : Option (Str × Str) := do
  let r1 ← expects [openB, openB] s
  let r2 ← expects (strL "env") (skipWs r1)
  let r3 ← expects [Char.ofNat 61] (skipWs r2)
  let r4 ← expects [quoteChar] (skipWs r3)
  let (e, r5) ← readUntilQuote r4
  let r6 ← expects [closeB, closeB] (skipWs r5)
  pure (e, r6)

/-- `(?P<post>.*)$` applied to the rest `r` of the string: succeeds when `r`
has no newline (capturing `r`), or exactly one trailing newline (capturing
`r` without it — `$` matches before a final newline and `re.match` does not
require the whole string to be consumed); fails otherwise. -/
def tailCapture (r : Str) : Option Str :=
  let a := r.takeWhile (fun c => c ≠ nlChar)
  match r.dropWhile (fun c => c ≠ nlChar) with
  | [] => some a
  | [_] => some a
  | _ => none

/-- `CUSTOM_ENV_RE.match(s)`: the greedy `(?P<pre>.*)` picks the *last*
position at which the marker (with an admissible tail) matches, and the
prefix may not contain a newline; yields `(pre, env, post)`. -/
def envMatch : Str → Option (Str × Str × Str)
  | [] => none
  | c :: cs =>
    let later := if c = nlChar then none else envMatch cs
    match later with
    | some (p, e, q) => some (c :: p, e, q)
    | none =>
      match parseEnvMarkerAt (c :: cs) with
      | some (e, rest) =>
        match tailCapture rest with
        | some q => some ([], e, q)
        | none => none
      | none => none

/-- The canonical include marker `{{file='f'}}`. -/
def includeMarkerOf (f : Str) : Str :=
  [openB, openB] ++ strL "file" ++ [Char.ofNat 61, quoteChar] ++ f ++
    [quoteChar, closeB, closeB]

/-- The canonical environment marker with single spaces, as in the spec's
examples: `{{ env = 'E' }}`. -/
def envMarkerCore (e : Str) : Str :=
  [openB, openB, ' '] ++ strL "env" ++ [' ', Char.ofNat 61, ' ', quoteChar] ++
    e ++ [quoteChar, ' ', closeB, closeB]

example : parseInclude (includeMarkerOf (strL "a.yaml")) = some (strL "a.yaml") := by decide
example : parseInclude (strL "x") = none := by decide
example : envMatch (envMarkerCore (strL "HOME")) = some ([], strL "HOME", []) := by decide
example : envMatch (strL "a" ++ envMarkerCore (strL "E") ++ strL "b") =
    some (strL "a", strL "E", strL "b") := by decide

/-! ### Parser lemmas -/

theorem expects_nil (cs : Str) : expects [] cs = some cs := rfl

theorem expects_cons_self (p : Char) (ps cs : Str) :
    expects (p :: ps) (p :: cs) = expects ps cs := by
  simp [expects]

theorem expects_self_append : ∀ pat rest : Str, expects pat (pat ++ rest) = some rest := by
  intro pat
  induction pat with
  | nil => intro rest; simp [expects]
  | cons c cs ih => intro rest; simp [expects, ih]

theorem expects_cons_ne {p c : Char} (h : c ≠ p) (ps cs : Str) :
    expects (p :: ps) (c :: cs) = none := by
  simp [expects, h]

theorem optWs_not_space {c : Char} (h : isPySpace c = false) (r : Str) :
    optWs (c :: r) = c :: r := by
  simp [optWs, h]

theorem skipWs_cons_space {c : Char} (h : isPySpace c = true) (r : Str) :
    skipWs (c :: r) = skipWs r := by
  simp [skipWs, List.dropWhile_cons, h]

theorem skipWs_cons_not_space {c : Char} (h : isPySpace c = false) (r : Str) :
    skipWs (c :: r) = c :: r := by
  simp [skipWs, List.dropWhile_cons, h]

theorem readUntilQuote_append {e : Str} (he : quoteChar ∉ e) (r : Str) :
    readUntilQuote (e ++ quoteChar :: r) = some (e, r) := by
  induction e with
  | nil => simp [readUntilQuote]
  | cons c cs ih =>
    have hc : c ≠ quoteChar := fun hcq => he (by simp [hcq])
    have ih' := ih (fun hm => he (by simp [hm]))
    simp [readUntilQuote, hc, ih']

theorem takeWhile_noNl {q : Str} (h : nlChar ∉ q) :
    q.takeWhile (fun c => c ≠ nlChar) = q := by
  simp
  intro x hx hxeq
  exact h (hxeq ▸ hx)

theorem dropWhile_noNl {q : Str} (h : nlChar ∉ q) :
    q.dropWhile (fun c => c ≠ nlChar) = [] := by
  simp
  intro x hx hxeq
  exact h (hxeq ▸ hx)

theorem tailCapture_of_noNl {q : Str} (h : nlChar ∉ q) : tailCapture q = some q := by
  unfold tailCapture
  rw [takeWhile_noNl h, dropWhile_noNl h]

/-- No two adjacent open braces. -/
def noDB : Str → Bool
  | [] => true
  | [_] => true
  | a :: b :: rest => !(decide (a = openB) && decide (b = openB)) && noDB (b :: rest)

theorem noDB_of_braceFree : ∀ {s : Str}, openB ∉ s → noDB s = true := by
  intro s
  induction s with
  | nil => intro _; rfl
  | cons c cs ih =>
    intro h
    have hc : c ≠ openB := fun hq => h (by simp [hq])
    have ih' := ih (fun hm => h (by simp [hm]))
    cases cs with
    | nil => rfl
    | cons d ds => simp [noDB, hc, ih']

theorem noDB_cons_openB {rest : Str} (h : openB ∉ rest) :
    noDB (openB :: rest) = true := by
  cases rest with
  | nil => rfl
  | cons d ds =>
    have hd : d ≠ openB := fun hq => h (by simp [hq])
    simp [noDB, hd, noDB_of_braceFree h]

theorem envMatch_none_of_noDB : ∀ {s : Str}, noDB s = true → envMatch s = none := by
  intro s
  induction s with
  | nil => intro _; rfl
  | cons c cs ih =>
    intro h
    have here : parseEnvMarkerAt (c :: cs) = none := by
      cases cs with
      | nil =>
        by_cases hc : c = openB
        · subst hc; simp [parseEnvMarkerAt, expects]
        · simp [parseEnvMarkerAt, expects, hc]
      | cons d ds =>
        have hnot : ¬(c = openB ∧ d = openB) := by
          intro hb
          obtain ⟨h1, h2⟩ := hb
          simp [noDB, h1, h2] at h
        by_cases hc : c = openB
        · subst hc
          have hd : d ≠ openB := fun h2 => hnot ⟨rfl, h2⟩
          simp [parseEnvMarkerAt, expects, hd]
        · simp [parseEnvMarkerAt, expects, hc]
    have later : envMatch cs = none := by
      apply ih
      cases cs with
      | nil => rfl
      | cons d ds =>
        simp [noDB] at h
        exact h.2
    by_cases hc : c = nlChar
    · subst hc
      simp [envMatch, here]
    · simp [envMatch, hc, later, here]

theorem envMatch_none_of_braceFree {s : Str} (h : openB ∉ s) :
    envMatch s = none :=
  envMatch_none_of_noDB (noDB_of_braceFree h)

theorem parseInclude_nil : parseInclude [] = none := rfl

theorem parseInclude_cons_ne {c : Char} (h : c ≠ openB) (s : Str) :
    parseInclude (c :: s) = none := by
  simp [parseInclude, expects, h]

theorem parseInclude_none_of_braceFree {s : Str} (h : openB ∉ s) :
    parseInclude s = none := by
  cases s with
  | nil => rfl
  | cons c cs =>
    exact parseInclude_cons_ne (fun hq => h (by simp [hq])) cs

theorem strL_file : strL "file" = ['f', 'i', 'l', 'e'] := rfl

theorem strL_env : strL "env" = ['e', 'n', 'v'] := rfl

theorem parseInclude_marker {f : Str} (hf : quoteChar ∉ f) (t : Str) :
    parseInclude (includeMarkerOf f ++ t) = some f := by
  have h1 : includeMarkerOf f ++ t =
      openB :: openB :: 'f' :: 'i' :: 'l' :: 'e' :: Char.ofNat 61 ::
        quoteChar :: (f ++ (quoteChar :: closeB :: closeB :: t)) := by
    simp [includeMarkerOf, strL_file]
  rw [h1]
  simp only [parseInclude, strL_file, expects_cons_self, expects_nil,
    Option.bind_eq_bind, Option.some_bind,
    optWs_not_space (show isPySpace 'f' = false from rfl),
    optWs_not_space (show isPySpace (Char.ofNat 61) = false from rfl),
    optWs_not_space (show isPySpace quoteChar = false from rfl),
    optWs_not_space (show isPySpace closeB = false from rfl)]
  rw [readUntilQuote_append hf]
  simp only [Option.some_bind,
    optWs_not_space (show isPySpace closeB = false from rfl),
    expects_cons_self, expects_nil, Option.some_bind]
  rfl

theorem parseEnvMarkerAt_canonical {e : Str} (he : quoteChar ∉ e) (q : Str) :
    parseEnvMarkerAt (envMarkerCore e ++ q) = some (e, q) := by
  have h1 : envMarkerCore e ++ q =
      openB :: openB :: ' ' :: 'e' :: 'n' :: 'v' :: ' ' :: Char.ofNat 61 ::
        ' ' :: quoteChar :: (e ++ (quoteChar :: ' ' :: closeB :: closeB :: q)) := by
    simp [envMarkerCore, strL_env]
  rw [h1]
  simp only [parseEnvMarkerAt, strL_env, expects_cons_self, expects_nil,
    Option.bind_eq_bind, Option.some_bind,
    skipWs_cons_space (show isPySpace ' ' = true from rfl),
    skipWs_cons_not_space (show isPySpace 'e' = false from rfl),
    skipWs_cons_not_space (show isPySpace (Char.ofNat 61) = false from rfl),
    skipWs_cons_not_space (show isPySpace quoteChar = false from rfl),
    skipWs_cons_not_space (show isPySpace closeB = false from rfl)]
  rw [readUntilQuote_append he]
  simp only [Option.some_bind,
    skipWs_cons_space (show isPySpace ' ' = true from rfl),
    skipWs_cons_not_space (show isPySpace closeB = false from rfl),
    expects_cons_self, expects_nil, Option.some_bind]
  rfl

theorem envMatch_canonical : ∀ (p : Str) {e q : Str},
    nlChar ∉ p → openB ∉ e → quoteChar ∉ e → openB ∉ q → nlChar ∉ q →
    envMatch (p ++ envMarkerCore e ++ q) = some (p, e, q) := by
  intro p
  induction p with
  | nil =>
    intro e q _ hbe hqe hbq hnq
    have htail : openB ∉ (openB :: ' ' :: 'e' :: 'n' :: 'v' :: ' ' ::
        Char.ofNat 61 :: ' ' :: quoteChar ::
        (e ++ (quoteChar :: ' ' :: closeB :: closeB :: q))).tail := by
      intro hmem
      simp at hmem
      rcases hmem with h | h | h | h | h | h | h | h | h
      · exact absurd h.symm (by decide)
      · exact absurd h.symm (by decide)
      · exact absurd h.symm (by decide)
      · exact absurd h.symm (by decide)
      · exact absurd h.symm (by decide)
      · exact absurd h.symm (by decide)
      · exact absurd h.symm (by decide)
      · exact absurd h.symm (by decide)
      · rcases h with h | h
        · exact hbe h
        · rcases h with h | h | h | h
          · exact absurd h.symm (by decide)
          · exact absurd h.symm (by decide)
          · exact absurd h.symm (by decide)
          · exact hbq h
    have h1 : envMarkerCore e ++ q =
        openB :: openB :: ' ' :: 'e' :: 'n' :: 'v' :: ' ' :: Char.ofNat 61 ::
          ' ' :: quoteChar :: (e ++ (quoteChar :: ' ' :: closeB :: closeB :: q)) := by
      simp [envMarkerCore, strL_env]
    have hlater : envMatch (openB :: ' ' :: 'e' :: 'n' :: 'v' :: ' ' ::
        Char.ofNat 61 :: ' ' :: quoteChar ::
        (e ++ (quoteChar :: ' ' :: closeB :: closeB :: q))) = none := by
      exact envMatch_none_of_noDB (noDB_cons_openB htail)
    have hhere := parseEnvMarkerAt_canonical hqe q
    rw [h1] at hhere
    rw [List.nil_append, h1, envMatch]
    rw [if_neg (show ¬(openB = nlChar) by decide)]
    rw [hlater, hhere]
    simp [tailCapture_of_noNl hnq]
  | cons c p ih =>
    intro e q hnp hbe hqe hbq hnq
    have hc : c ≠ nlChar := fun hcq => hnp (by simp [hcq])
    have ih' := ih (fun hm => hnp (by simp [hm])) hbe hqe hbq hnq
    show envMatch (c :: (p ++ envMarkerCore e ++ q)) = _
    rw [envMatch]
    rw [List.append_assoc] at ih'
    simp [hc, ih']

/-! ## The resolver (`config.py` lines 32–81) -/

/-- A filesystem of parsed YAML files. -/
abbrev Fs := List (Str × Node)

/-- The process environment (`os.environ.get`). -/
abbrev EnvF := Str → Option Str

/-- First binding of key `k` in an association list (Python `dict` lookup). -/
def dictLookup : List (Str × Node) → Str → Option Node
  | [], _ => none
  | (k0, v) :: rest, k => if k0 = k then some v else dictLookup rest k

/-- Modelled from the spec: `filesystem.load_yaml` is not part of this
repository snapshot; per §4.2 an include marker is replaced with "the parsed
content of file `f`".  The filesystem is a finite table of parsed trees; a
file absent from the table is modelled as the empty (null) document. -/
def load_yaml (fs : Fs) (f : Str) : Node :=
  match dictLookup fs f with
  | some n => n
  | none => .null

/-- `_process_variable` (config.py lines 32–50): try the include grammar,
then the environment grammar, else return the string as a literal. -/
def process_variable (fs : Fs) (env : EnvF) (strict : Bool) (variable' : Str) :
    Except Err Node :=
  match parseInclude variable' with
  | some f => .ok (load_yaml fs f)
  | none =>
    match envMatch variable' with
    | some (pre, name, post) =>
      match env name with
      | some v => .ok (.str (pre ++ v ++ post))
      | none =>
        if strict then .error (.missingEnvVarStrict name)
        else .ok (.str (pre ++ post))
    | none => .ok (.str variable')

/-- The body of `_update_single_variable` (config.py lines 53–60), with the
recursive call on the processed result abstracted as `rd` (which stands for
`_update_context_recursively` at the remaining fuel): membership test in the
history, then a copied-and-extended history. -/
def update_single_step (fs : Fs) (env : EnvF) (strict : Bool)
    (rd : Node → List Str → Except Err Node)
    (value : Str) (include_history : List Str) : Except Err Node :=
  if value ∈ include_history then .error .infiniteIncludeLoop
  else
    match process_variable fs env strict value with
    | .error e => .error e
    | .ok n => rd n (include_history ++ [value])

mutual

/-- The structural walk of `_update_context_recursively` (config.py lines
63–81) at one fuel level: `rd` resolves the trees produced by
`_process_variable`.  String values are handled by `_update_single_variable`
with the incoming history; non-string values are recursed into with the
*default* (empty) history, exactly as the source's recursive call
`_update_context_recursively(value)` does. -/
def ctxGo (fs : Fs) (env : EnvF) (strict : Bool)
    (rd : Node → List Str → Except Err Node) :
    Node → List Str → Except Err Node
  | .map kvs, include_history => do
    pure (.map (← entriesGo fs env strict rd kvs include_history))
  | .seq xs, include_history => do
    pure (.seq (← itemsGo fs env strict rd xs include_history))
  | other, _ => pure other

def entriesGo (fs : Fs) (env : EnvF) (strict : Bool)
    (rd : Node → List Str → Except Err Node) :
    List (Str × Node) → List Str → Except Err (List (Str × Node))
  | [], _ => pure []
  | (k, v) :: rest, include_history => do
    let v' ← match v with
      | .str s => update_single_step fs env strict rd s include_history
      | other => ctxGo fs env strict rd other []
    let rest' ← entriesGo fs env strict rd rest include_history
    pure ((k, v') :: rest')

def itemsGo (fs : Fs) (env : EnvF) (strict : Bool)
    (rd : Node → List Str → Except Err Node) :
    List Node → List Str → Except Err (List Node)
  | [], _ => pure []
  | v :: rest, include_history => do
    let v' ← match v with
      | .str s => update_single_step fs env strict rd s include_history
      | other => ctxGo fs env strict rd other []
    let rest' ← itemsGo fs env strict rd rest include_history
    pure (v' :: rest')

end

/-- `_update_context_recursively`, fuel-indexed: one unit of fuel is spent
each time a processed string's result is resolved further (the only source
of non-structural recursion in the Python code). -/
def update_context_recursively (fs : Fs) (env : EnvF) (strict : Bool) :
    Nat → Node → List Str → Except Err Node
  | 0, n, include_history =>
    ctxGo fs env strict (fun _ _ => .error .outOfFuel) n include_history
  | fuel + 1, n, include_history =>
    ctxGo fs env strict (update_context_recursively fs env strict fuel)
      n include_history

/-- The resolver `rd` used at a given fuel level. -/
def rdOf (fs : Fs) (env : EnvF) (strict : Bool) :
    Nat → Node → List Str → Except Err Node
  | 0 => fun _ _ => .error .outOfFuel
  | fuel + 1 => update_context_recursively fs env strict fuel

/-- `_update_single_variable`, fuel-indexed. -/
def update_single_variable (fs : Fs) (env : EnvF) (strict : Bool)
    (fuel : Nat) (value : Str) (include_history : List Str) :
    Except Err Node :=
  update_single_step fs env strict (rdOf fs env strict fuel) value
    include_history

theorem update_context_recursively_eq (fs : Fs) (env : EnvF) (strict : Bool)
    (fuel : Nat) (n : Node) (hist : List Str) :
    update_context_recursively fs env strict fuel n hist =
      ctxGo fs env strict (rdOf fs env strict fuel) n hist := by
  cases fuel <;> rfl

example :
    update_context_recursively [(strL "a", .map [(strL "x", .str (strL "hi"))])]
      (fun _ => none) false 2
      (.map [(strL "k", .str (includeMarkerOf (strL "a")))]) [] =
    .ok (.map [(strL "k", .map [(strL "x", .str (strL "hi"))])]) := by decide

example :
    update_context_recursively [] (fun _ => some (strL "v")) false 1
      (.map [(strL "k", .str (strL "p-" ++ envMarkerCore (strL "E") ++ strL "-s"))]) [] =
    .ok (.map [(strL "k", .str (strL "p-v-s"))]) := by decide

/-! ## The loader, merger and validators (`config.py` lines 84–141) -/

/-- Python `k in n` (`__contains__`): key test for dicts, element test for
lists, substring test for strings, `TypeError` otherwise. -/
def startsWithB : Str → Str → Bool
  | [], _ => true
  | _ :: _, [] => false
  | a :: as, b :: bs => decide (a = b) && startsWithB as bs

def containsSub (needle : Str) : Str → Bool
  | [] => startsWithB needle []
  | c :: rest => startsWithB needle (c :: rest) || containsSub needle rest

def nodeContains (n : Node) (k : Str) : Except Err Bool :=
  match n with
  | .map kvs => pure (dictLookup kvs k).isSome
  | .seq xs => pure (xs.contains (.str k))
  | .str s => pure (containsSub k s)
  | _ => .error .typeError

/-- Python `n[k]`: dict indexing raising `KeyError`; indexing anything else
with a string key raises `TypeError`. -/
def nodeIndex (n : Node) (k : Str) : Except Err Node :=
  match n with
  | .map kvs =>
    match dictLookup kvs k with
    | some v => pure v
    | none => .error (.keyError k)
  | _ => .error .typeError

/-- Python dict assignment `d[k] = v` (replace in place or append). -/
def dictInsert : List (Str × Node) → Str → Node → List (Str × Node)
  | [], k, v => [(k, v)]
  | (k0, v0) :: rest, k, v =>
    if k0 = k then (k0, v) :: rest
    else (k0, v0) :: dictInsert rest k v

mutual

/-- Modelled from the spec: `dictionary.merge` is not part of this
repository snapshot.  Per §4.3, for each key present in either side: if the
key exists in both and both values are mappings, merge recursively,
otherwise the overlay value wins if the key exists in the overlay, else the
base value is kept; any non-mapping combination is full replacement by the
overlay. -/
def merge : Node → Node → Node
  | .map b, .map o =>
    .map (mergeLeft b o ++ o.filter (fun kv => (dictLookup b kv.1).isNone))
  | _, overlay => overlay

def mergeLeft : List (Str × Node) → List (Str × Node) → List (Str × Node)
  | [], _ => []
  | (k, v) :: rest, o =>
    (match dictLookup o k with
     | some vo => (k, merge v vo)
     | none => (k, v)) :: mergeLeft rest o

end

mutual

/-- `get_all_nested_keys` (config.py lines 110–116): append every key, and
recurse only into values that are dicts — values that are lists are *not*
descended into. -/
def get_all_nested_keys : List Str → List (Str × Node) → List Str
  | result, [] => result
  | result, (k, v) :: rest =>
    get_all_nested_keys (gankVal (result ++ [k]) v) rest

/-- The per-value step of `get_all_nested_keys`: `if isinstance(d[key],
dict): get_all_nested_keys(result, d[key])`. -/
def gankVal : List Str → Node → List Str
  | r, .map kvs => get_all_nested_keys r kvs
  | r, _ => r

end

/-- `get_vars_with_dashes` (config.py lines 119–120). -/
def get_vars_with_dashes (vars_list : List Str) : List Str :=
  vars_list.filter (fun name => name.contains (Char.ofNat 45))

/-- Python `<` on strings: lexicographic by code point. -/
def strLtB : Str → Str → Bool
  | [], [] => false
  | [], _ :: _ => true
  | _ :: _, [] => false
  | a :: as, b :: bs =>
    if a.val < b.val then true
    else if b.val < a.val then false
    else strLtB as bs

def insertSorted (x : Str) : List Str → List Str
  | [] => [x]
  | y :: ys => if strLtB y x then y :: insertSorted x ys else x :: y :: ys

/-- Python `sorted` on a list of strings. -/
def sortStrs : List Str → List Str
  | [] => []
  | x :: xs => insertSorted x (sortStrs xs)

/-- `validate_dashes` (config.py lines 123–128) on a dict. -/
def validate_dashes (context : List (Str × Node)) : Except Err Unit :=
  let all_keys := get_all_nested_keys [] context
  let dashes := get_vars_with_dashes all_keys
  if dashes.length ≠ 0 then .error (.invalidKeyNames (sortStrs dashes))
  else pure ()

/-- `validate_dashes` applied to an arbitrary node: a non-dict argument
makes `get_all_nested_keys` call `.items()` on it — `AttributeError`. -/
def validate_dashes_node (n : Node) : Except Err Unit :=
  match n with
  | .map kvs => validate_dashes kvs
  | _ => .error .attributeError

/-- `check_required_vars` (config.py lines 131–141): a required name is
missing when it is absent, or bound to `''`, or bound to `None`; all missing
names are collected (in order) before the single failure. -/
def check_required_vars (context_dict : List (Str × Node))
    (required_vars : List Str) : Except Err Unit :=
  let missing_vars := required_vars.filter (fun v =>
    match dictLookup context_dict v with
    | none => true
    | some n => decide (n = .str []) || decide (n = .null))
  if missing_vars.length ≠ 0 then .error (.missingRequiredVars missing_vars)
  else pure ()

/-- `load_context_section` (config.py lines 84–107).  `commonName` stands
for `settings.COMMON_SECTION_NAME` and `doc` for the parsed config file
(`None` when empty); note that the section-reduction comprehension on line
96 uses the *literal* key `'common'`, not the setting. -/
def load_context_section (fs : Fs) (env : EnvF) (strict : Bool) (fuel : Nat)
    (commonName : Str) (doc : Option Node) (sect : Str) : Except Err Node :=
  if sect = commonName then .error .reservedSectionRequested
  else
    match doc with
    | none => .error .configEmpty
    | some context => do
      let present ← if sect = [] then pure true else nodeContains context sect
      if present = false then .error (.sectionNotFound sect)
      else do
        let commonV ← nodeIndex context (strL "common")
        let sectV ← nodeIndex context sect
        let reduced := Node.map
          (dictInsert (dictInsert [] (strL "common") commonV) sect sectV)
        let resolved ← update_context_recursively fs env strict fuel reduced []
        let inResolved ← if sect = [] then pure false
          else nodeContains resolved sect
        let context2 ←
          if inResolved then do
            let base ← nodeIndex resolved commonName
            let over ← nodeIndex resolved sect
            pure (merge base over)
          else pure resolved
        let deployable ← do
          let hasT ← nodeContains context2 (strL "templates")
          if hasT then pure true else nodeContains context2 (strL "kubectl")
        if deployable = false then .error .missingTemplatesOrKubectlKey
        else do
          let _ ← validate_dashes_node context2
          pure context2

/-! ## C5: merge semantics -/

/-- The entry list produced by merging two mappings. -/
def mergeMap (b o : List (Str × Node)) : List (Str × Node) :=
  mergeLeft b o ++ o.filter (fun kv => (dictLookup b kv.1).isNone)

theorem merge_map_map (b o : List (Str × Node)) :
    merge (.map b) (.map o) = .map (mergeMap b o) := by
  simp [merge, mergeMap]

theorem dictLookup_append (l1 l2 : List (Str × Node)) (k : Str) :
    dictLookup (l1 ++ l2) k =
      match dictLookup l1 k with
      | some v => some v
      | none => dictLookup l2 k := by
  induction l1 with
  | nil => simp [dictLookup]
  | cons kv rest ih =>
    obtain ⟨k0, v0⟩ := kv
    by_cases h : k0 = k <;> simp [dictLookup, h, ih]

theorem dictLookup_mergeLeft (b o : List (Str × Node)) (k : Str) :
    dictLookup (mergeLeft b o) k =
      match dictLookup b k with
      | some vb =>
        some (match dictLookup o k with
              | some vo => merge vb vo
              | none => vb)
      | none => none := by
  induction b with
  | nil => simp [mergeLeft, dictLookup]
  | cons kv rest ih =>
    obtain ⟨k0, v0⟩ := kv
    by_cases h : k0 = k
    · subst h
      cases hvo : dictLookup o k0 <;>
        simp [mergeLeft, dictLookup, hvo]
    · cases hvo : dictLookup o k0 <;>
        simp [mergeLeft, dictLookup, h, hvo, ih]

theorem dictLookup_filter_notInB (b o : List (Str × Node)) (k : Str) :
    dictLookup (o.filter (fun kv => (dictLookup b kv.1).isNone)) k =
      if (dictLookup b k).isSome then none else dictLookup o k := by
  induction o with
  | nil => simp [dictLookup]
  | cons kv rest ih =>
    obtain ⟨k0, v0⟩ := kv
    by_cases hk : k0 = k
    · subst hk
      cases hb : dictLookup b k0 <;>
        simp [List.filter_cons, dictLookup, hb, ih]
    · cases hb : dictLookup b k0 <;>
        cases hbk : dictLookup b k <;>
          simp [List.filter_cons, dictLookup, hb, hbk, hk, ih]

/-- Whether a node is a mapping. -/
def isMapB : Node → Bool
  | .map _ => true
  | _ => false

def exMergeBase1 : Node :=
  .map [(strL "a", .int 1), (strL "b", .map [(strL "x", .int 1)])]

def exMergeOver1 : Node :=
  .map [(strL "b", .map [(strL "y", .int 2)]), (strL "c", .int 3)]

def exMergeRes1 : Node :=
  .map [(strL "a", .int 1),
        (strL "b", .map [(strL "x", .int 1), (strL "y", .int 2)]),
        (strL "c", .int 3)]

/-- C5: merge is right-biased per mapping key, recursing only when both
values are mappings; any other combination (sequences included) is full
replacement by the overlay; with the spec's two concrete examples. -/
theorem C5_merge_semantics :
    (∀ b o k, dictLookup (mergeMap b o) k =
       match dictLookup b k, dictLookup o k with
       | some vb, some vo => some (merge vb vo)
       | some vb, none => some vb
       | none, some vo => some vo
       | none, none => none) ∧
    (∀ b o, merge (.map b) (.map o) = .map (mergeMap b o)) ∧
    (∀ vb vo, (isMapB vb = false ∨ isMapB vo = false) → merge vb vo = vo) ∧
    merge exMergeBase1 exMergeOver1 = exMergeRes1 ∧
    merge (.map [(strL "b", .map [(strL "x", .int 1)])])
        (.map [(strL "b", .int 5)]) =
      .map [(strL "b", .int 5)] := by
  refine ⟨?_, merge_map_map, ?_, by decide, by decide⟩
  · intro b o k
    rw [mergeMap, dictLookup_append, dictLookup_mergeLeft,
      dictLookup_filter_notInB]
    cases hb : dictLookup b k <;> cases ho : dictLookup o k <;> simp
  · intro vb vo h
    cases vb <;> cases vo <;> (try simp [isMapB] at h) <;> simp [merge]

theorem C5_witness :
    merge (.seq [.int 1]) (.seq [.int 2, .int 3]) = .seq [.int 2, .int 3] :=
  C5_merge_semantics.2.2.1 (.seq [.int 1]) (.seq [.int 2, .int 3])
    (Or.inl (by decide))

/-! ## C6: the key-name validator -/

mutual

/-- The keys the validator actually collects, written as a direct structural
recursion (the spec-side reading of `get_all_nested_keys`): all keys of the
mapping, descending into values that are mappings only. -/
def specKeys : List (Str × Node) → List Str
  | [] => []
  | (k, v) :: rest => k :: (specKeysVal v ++ specKeys rest)

def specKeysVal : Node → List Str
  | .map kvs => specKeys kvs
  | _ => []

end

theorem get_all_nested_keys_spec :
    ∀ (d : List (Str × Node)) (result : List Str),
      get_all_nested_keys result d = result ++ specKeys d := by
  have main : ∀ N, ∀ d : List (Str × Node), sizeOf d < N →
      ∀ result, get_all_nested_keys result d = result ++ specKeys d := by
    intro N
    induction N with
    | zero => exact fun d hd => absurd hd (Nat.not_lt_zero _)
    | succ N ih =>
      intro d hd result
      cases d with
      | nil => simp [get_all_nested_keys, specKeys]
      | cons kv rest =>
        obtain ⟨k, v⟩ := kv
        have hsz : sizeOf ((k, v) :: rest) = 1 + (1 + sizeOf k + sizeOf v) + sizeOf rest := by
          simp
        have hrest : sizeOf rest < N := by omega
        have hval : gankVal (result ++ [k]) v = (result ++ [k]) ++ specKeysVal v := by
          cases v with
          | map kvs =>
            have hkvs : sizeOf kvs < N := by
              have : sizeOf (Node.map kvs) = 1 + sizeOf kvs := by simp
              omega
            simp only [gankVal, specKeysVal]
            rw [ih kvs hkvs]
          | str s => simp [gankVal, specKeysVal]
          | int i => simp [gankVal, specKeysVal]
          | bool bv => simp [gankVal, specKeysVal]
          | null => simp [gankVal, specKeysVal]
          | seq xs => simp [gankVal, specKeysVal]
        simp only [get_all_nested_keys]
        rw [hval, ih rest hrest]
        simp [specKeys]
  exact fun d result => main (sizeOf d + 1) d (Nat.lt_succ_self _) result

/-- C6 counterexample: the claim says keys of mappings nested inside
sequences are collected and any collected dashed key makes the validator
fail; but `get_all_nested_keys` does not descend into lists, so this
context with the dashed key `my-dash` inside a sequence passes. -/
theorem C6_counterexample :
    validate_dashes [(strL "a", .seq [.map [(strL "my-dash", .null)]])] =
      .ok () := by decide

/-- C6 (amended): the validator collects every mapping key reachable through
nested mappings only — keys of mappings nested inside sequences are not
collected — and fails with `InvalidKeyNames` listing all offending names
sorted iff at least one collected key contains a dash. -/
theorem C6_amended : ∀ ctx : List (Str × Node),
    validate_dashes ctx =
      (let ds := (specKeys ctx).filter (fun k => k.contains (Char.ofNat 45));
       if ds.length ≠ 0 then .error (.invalidKeyNames (sortStrs ds))
       else .ok ()) := by
  intro ctx
  rw [validate_dashes, get_vars_with_dashes, get_all_nested_keys_spec]
  simp [pure, Except.pure]

/-! ## C7: the loader's three early checks -/

/-- C7: `load_context_section` fails with `ReservedSectionRequested` when the
requested name equals the reserved shared-section name (before the document
is consulted); otherwise with `ConfigEmpty` when the document is absent;
otherwise with `SectionNotFound` when the name is non-empty and not a
top-level key of the document. -/
theorem C7_loader_checks (fs : Fs) (env : EnvF) (strict : Bool) (fuel : Nat)
    (commonName : Str) (doc : Option Node) (sect : Str) :
    (sect = commonName →
      load_context_section fs env strict fuel commonName doc sect =
        .error .reservedSectionRequested) ∧
    (sect ≠ commonName → doc = none →
      load_context_section fs env strict fuel commonName doc sect =
        .error .configEmpty) ∧
    (∀ ctx, sect ≠ commonName → doc = some (.map ctx) → sect ≠ [] →
      dictLookup ctx sect = none →
      load_context_section fs env strict fuel commonName doc sect =
        .error (.sectionNotFound sect)) := by
  refine ⟨?_, ?_, ?_⟩
  · intro h
    simp [load_context_section, h]
  · intro h hdoc
    subst hdoc
    simp [load_context_section, h]
  · intro ctx h hdoc hs hlook
    subst hdoc
    simp [load_context_section, h, hs, nodeContains, hlook]

def exDocC7 : Node := .map [(strL "common", .null), (strL "app", .null)]

theorem C7_witness :
    load_context_section [] (fun _ => none) false 1 (strL "common")
        (some exDocC7) (strL "nosuch") =
      .error (.sectionNotFound (strL "nosuch")) :=
  (C7_loader_checks [] (fun _ => none) false 1 (strL "common")
      (some exDocC7) (strL "nosuch")).2.2
    [(strL "common", .null), (strL "app", .null)]
    (by decide) rfl (by decide) (by decide)

/-! ## C8: the required-variables validator -/

/-- A required name is satisfied when it is bound in the top-level context
to a value that is neither null nor the empty string. -/
def requiredOk (ctx : List (Str × Node)) (v : Str) : Prop :=
  ∃ n, dictLookup ctx v = some n ∧ n ≠ .null ∧ n ≠ .str []

theorem requiredOk_pred (ctx : List (Str × Node)) (v : Str) :
    ((match dictLookup ctx v with
      | none => true
      | some n => decide (n = .str []) || decide (n = .null)) = true) ↔
      ¬ requiredOk ctx v := by
  cases h : dictLookup ctx v with
  | none =>
    simp [requiredOk, h]
  | some n =>
    have hiff : requiredOk ctx v ↔ (n ≠ .null ∧ n ≠ .str []) := by
      constructor
      · rintro ⟨m, hm, h1, h2⟩
        rw [h] at hm
        injection hm with hm
        subst hm
        exact ⟨h1, h2⟩
      · rintro ⟨h1, h2⟩
        exact ⟨n, h, h1, h2⟩
    rw [hiff]
    simp only [Bool.or_eq_true, decide_eq_true_eq]
    constructor
    · rintro (h1 | h1) ⟨hnull, hstr⟩
      · exact hstr h1
      · exact hnull h1
    · intro himp
      by_cases hn : n = Node.null
      · exact Or.inr hn
      · left
        by_contra hs
        exact himp ⟨hn, hs⟩

/-- C8: `check_required_vars` fails iff some required name is absent, null
or empty; the single `MissingRequiredVars` failure aggregates exactly the
set of all offending names; and a failure is always of that kind. -/
theorem C8_check_required_vars (ctx : List (Str × Node)) (req : List Str) :
    (check_required_vars ctx req = .ok () ↔ ∀ v ∈ req, requiredOk ctx v) ∧
    (∀ ms, check_required_vars ctx req = .error (.missingRequiredVars ms) →
      ∀ v, v ∈ ms ↔ (v ∈ req ∧ ¬ requiredOk ctx v)) ∧
    (check_required_vars ctx req = .ok () ∨
      ∃ ms, check_required_vars ctx req = .error (.missingRequiredVars ms)) := by
  refine ⟨?_, ?_, ?_⟩
  · simp only [check_required_vars]
    split_ifs with h
    · constructor
      · intro hfalse; cases hfalse
      · intro hall
        exfalso
        apply h
        rw [List.length_eq_zero, List.filter_eq_nil_iff]
        intro v hv hpred
        exact ((requiredOk_pred ctx v).mp hpred) (hall v hv)
    · rw [not_not, List.length_eq_zero, List.filter_eq_nil_iff] at h
      constructor
      · intro _ v hv
        by_contra hnot
        exact (h v hv) ((requiredOk_pred ctx v).mpr hnot)
      · intro _; rfl
  · intro ms hms v
    simp only [check_required_vars] at hms
    split_ifs at hms with h
    · simp only [Except.error.injEq, Err.missingRequiredVars.injEq] at hms
      subst hms
      rw [List.mem_filter]
      constructor
      · rintro ⟨h1, h2⟩
        exact ⟨h1, (requiredOk_pred ctx v).mp h2⟩
      · rintro ⟨h1, h2⟩
        exact ⟨h1, (requiredOk_pred ctx v).mpr h2⟩
    · simp at hms
  · simp only [check_required_vars]
    split_ifs with h
    · exact Or.inr ⟨_, rfl⟩
    · exact Or.inl rfl

def exCtxC8 : List (Str × Node) := [(strL "a", .str (strL "x")), (strL "b", .str [])]

def exReqC8 : List Str := [strL "a", strL "b"]

theorem C8_witness :
    strL "b" ∈ [strL "b"] ↔
      (strL "b" ∈ exReqC8 ∧ ¬ requiredOk exCtxC8 (strL "b")) :=
  (C8_check_required_vars exCtxC8 exReqC8).2.1 [strL "b"] (by decide) (strL "b")

/-! ## C10: the implicit KeyError on a document without 'common' -/

/-- C10: when the requested section passes the reserved-name, empty-document
and section-present checks but the document has no top-level `common` key,
the section-reduction comprehension raises a bare `KeyError('common')` — a
failure kind outside the spec's eight error kinds. -/
theorem C10_missing_common_key_error (fs : Fs) (env : EnvF) (strict : Bool)
    (fuel : Nat) (commonName : Str) (ctx : List (Str × Node)) (sect : Str) :
    sect ≠ commonName →
    dictLookup ctx (strL "common") = none →
    (sect = [] ∨ (dictLookup ctx sect).isSome = true) →
    load_context_section fs env strict fuel commonName (some (.map ctx)) sect =
      .error (.keyError (strL "common")) := by
  intro hres hcommon hpresent
  rcases hpresent with hnil | hsome
  · subst hnil
    simp [load_context_section, hres, nodeContains, nodeIndex, hcommon]
  · by_cases hnil : sect = []
    · subst hnil
      simp [load_context_section, hres, nodeContains, nodeIndex, hcommon]
    · simp [load_context_section, hres, hnil, nodeContains, nodeIndex,
        hcommon, hsome]

theorem C10_witness :
    load_context_section [] (fun _ => none) false 1 (strL "common")
        (some (.map [(strL "app", .null)])) (strL "app") =
      .error (.keyError (strL "common")) :=
  C10_missing_common_key_error [] (fun _ => none) false 1 (strL "common")
    [(strL "app", .null)] (strL "app") (by decide) (by decide)
    (Or.inr (by decide))

/-! ## C2: the file-include grammar and whole-string anchoring -/

def exFsC2 : Fs := [(strL "f", .map [(strL "inc", .bool true)])]

/-- C2 counterexample: the claim says a string containing the include marker
with extra trailing characters never triggers the file-include grammar; but
`INCLUDE_RE` is used with `re.match`, which anchors at the start only, so
`{{file='f'}}X` is treated as a file include. -/
theorem C2_counterexample :
    parseInclude (includeMarkerOf (strL "f") ++ strL "X") = some (strL "f") ∧
    process_variable exFsC2 (fun _ => none) false
        (includeMarkerOf (strL "f") ++ strL "X") =
      .ok (.map [(strL "inc", .bool true)]) := by
  constructor <;> decide

/-- C2 (amended): the file-include grammar applies iff the marker pattern
matches at the *start* of the string: extra trailing characters do not
prevent the include substitution, while a string that does not begin with an
open brace never matches the include grammar (and thus falls through to the
environment grammar or is returned as a literal). -/
theorem C2_amended (fs : Fs) (env : EnvF) (strict : Bool) (f t : Str)
    (hf : quoteChar ∉ f) :
    parseInclude (includeMarkerOf f ++ t) = some f ∧
    process_variable fs env strict (includeMarkerOf f ++ t) =
      .ok (load_yaml fs f) ∧
    (∀ (c : Char) (s : Str), c ≠ openB → parseInclude (c :: s) = none) := by
  refine ⟨parseInclude_marker hf t, ?_, fun c s hc => parseInclude_cons_ne hc s⟩
  simp [process_variable, parseInclude_marker hf t]

theorem C2_witness :
    process_variable exFsC2 (fun _ => none) false
        (includeMarkerOf (strL "g") ++ strL "tail") =
      .ok (load_yaml exFsC2 (strL "g")) :=
  (C2_amended exFsC2 (fun _ => none) false (strL "g") (strL "tail")
    (by decide)).2.1

/-! ## C3: the environment grammar -/

/-- C3: a string of the form `pre ++ {{ env = 'E' }} ++ post` (the canonical
environment marker; the prefix must not contain a newline, the suffix and
the name must be brace-free so that the greedy prefix of `CUSTOM_ENV_RE`
selects exactly this decomposition, and the string must not begin with a
file-include marker, which is tried first) resolves to `pre ++ value ++
post` when `E` is set; when `E` is unset it fails with
`MissingEnvVarStrict` in strict mode and substitutes the empty string
otherwise.  Prefix and suffix pass through literally. -/
theorem C3_env_substitution (fs : Fs) (env : EnvF) (strict : Bool)
    (pre e post : Str)
    (hnp : nlChar ∉ pre) (hbe : openB ∉ e) (hqe : quoteChar ∉ e)
    (hbq : openB ∉ post) (hnq : nlChar ∉ post)
    (hinc : parseInclude (pre ++ envMarkerCore e ++ post) = none) :
    process_variable fs env strict (pre ++ envMarkerCore e ++ post) =
      (match env e with
       | some v => .ok (.str (pre ++ v ++ post))
       | none =>
         if strict then .error (.missingEnvVarStrict e)
         else .ok (.str (pre ++ post))) := by
  rw [process_variable, hinc, envMatch_canonical pre hnp hbe hqe hbq hnq]

def envC3 : EnvF := fun e => if e = strL "HOME" then some (strL "/root") else none

theorem C3_witness :
    process_variable [] envC3 false
        (strL "p-" ++ envMarkerCore (strL "HOME") ++ strL "-s") =
      .ok (.str (strL "p-/root-s")) := by
  rw [C3_env_substitution [] envC3 false (strL "p-") (strL "HOME") (strL "-s")
    (by decide) (by decide) (by decide) (by decide) (by decide) (by decide)]
  decide

/-! ## C9: the include history is branch-local -/

theorem entriesGo_append (fs : Fs) (env : EnvF) (strict : Bool)
    (rd : Node → List Str → Except Err Node)
    (l1 l2 : List (Str × Node)) (hist : List Str) :
    entriesGo fs env strict rd (l1 ++ l2) hist = (do
      let a ← entriesGo fs env strict rd l1 hist
      let b ← entriesGo fs env strict rd l2 hist
      pure (a ++ b)) := by
  induction l1 with
  | nil =>
    cases h : entriesGo fs env strict rd l2 hist <;> simp [entriesGo, h]
  | cons kv rest ih =>
    obtain ⟨k, v⟩ := kv
    cases v <;>
      (rw [List.cons_append, entriesGo, entriesGo, ih]
       simp only [bind_assoc, pure_bind, Except.pure_eq_ok, Except.ok_bind,
         List.cons_append]) <;>
      exact fun s hs => Node.noConfusion hs

theorem itemsGo_append (fs : Fs) (env : EnvF) (strict : Bool)
    (rd : Node → List Str → Except Err Node)
    (l1 l2 : List Node) (hist : List Str) :
    itemsGo fs env strict rd (l1 ++ l2) hist = (do
      let a ← itemsGo fs env strict rd l1 hist
      let b ← itemsGo fs env strict rd l2 hist
      pure (a ++ b)) := by
  induction l1 with
  | nil =>
    cases h : itemsGo fs env strict rd l2 hist <;> simp [itemsGo, h]
  | cons v rest ih =>
    cases v <;>
      (rw [List.cons_append, itemsGo, itemsGo, ih]
       simp only [bind_assoc, pure_bind, Except.pure_eq_ok, Except.ok_bind,
         List.cons_append]) <;>
      exact fun s hs => Node.noConfusion hs

/-- C9: the include history is branch-local — resolving the entries (or
items) of a mapping (or sequence) splits homomorphically over any partition
into sibling groups, each receiving the *same* incoming history: the outcome
of one sibling branch never depends on the markers visited in another.  If
the history were shared and mutated across siblings, this equation would
fail. -/
theorem C9_branch_local_history (fs : Fs) (env : EnvF) (strict : Bool)
    (fuel : Nat) (l1 l2 : List (Str × Node)) (xs1 xs2 : List Node)
    (hist : List Str) :
    (update_context_recursively fs env strict fuel (.map (l1 ++ l2)) hist = (do
      let a ← entriesGo fs env strict (rdOf fs env strict fuel) l1 hist
      let b ← entriesGo fs env strict (rdOf fs env strict fuel) l2 hist
      pure (.map (a ++ b)))) ∧
    (update_context_recursively fs env strict fuel (.seq (xs1 ++ xs2)) hist = (do
      let a ← itemsGo fs env strict (rdOf fs env strict fuel) xs1 hist
      let b ← itemsGo fs env strict (rdOf fs env strict fuel) xs2 hist
      pure (.seq (a ++ b)))) := by
  constructor
  · rw [update_context_recursively_eq, ctxGo, entriesGo_append]
    simp only [bind_assoc, pure_bind, Except.pure_eq_ok, Except.ok_bind]
  · rw [update_context_recursively_eq, ctxGo, itemsGo_append]
    simp only [bind_assoc, pure_bind, Except.pure_eq_ok, Except.ok_bind]

/-! ## C1: cycle detection and the nested self-include -/

/-- An environment with no variables set. -/
def envNone : EnvF := fun _ => none

/-- The raw marker of the self-including file `a`. -/
def mA : Str := includeMarkerOf (strL "a")

/-- A filesystem in which file `a` includes itself, with the repeated marker
nested one mapping deeper (`{outer: {k: "{{file='a'}}"}}`). -/
def fsC1 : Fs := [(strL "a", .map [(strL "outer", .map [(strL "k", .str mA)])])]

/-- A tree that includes file `a`. -/
def treeC1 : Node := .map [(strL "k", .str mA)]

/-- C1 (code bug): by the claim (and spec §4.2/§8), this self-include must
fail with `InfiniteIncludeLoop`; but when the repeated marker sits below an
intermediate mapping inside the included file, the recursive calls on lines
70/78 of config.py drop `include_history` (they use the default `[]`), so
the cycle check never fires and resolution diverges: every fuel bound is
exhausted, i.e. the Python code recurses without end instead of raising the
loop error. -/
theorem C1_loop_aux :
    ∀ n, update_single_step fsC1 envNone false (rdOf fsC1 envNone false n)
      mA [] = .error .outOfFuel := by
  intro n
  induction n with
  | zero => decide
  | succ n ih =>
    have hp : process_variable fsC1 envNone false mA =
        .ok (.map [(strL "outer", .map [(strL "k", .str mA)])]) := by decide
    have h2 : ctxGo fsC1 envNone false (rdOf fsC1 envNone false n)
        (.map [(strL "outer", .map [(strL "k", .str mA)])]) [mA] =
        .error .outOfFuel := by
      simp [ctxGo, entriesGo, ih]
    show update_single_step fsC1 envNone false
        (update_context_recursively fsC1 envNone false n) mA [] = _
    simp only [update_single_step, hp]
    rw [if_neg (by decide : ¬ (mA ∈ ([] : List Str)))]
    rw [List.nil_append, update_context_recursively_eq, h2]

theorem C1_nested_self_include_diverges :
    ∀ fuel, update_context_recursively fsC1 envNone false fuel treeC1 [] =
      .error .outOfFuel := by
  intro fuel
  rw [update_context_recursively_eq]
  simp [treeC1, ctxGo, entriesGo, C1_loop_aux fuel]

/-! ## C4: termination and marker-freeness -/

def envAB : EnvF := fun e =>
  if e = strL "A" then some (strL "x")
  else if e = strL "B" then some (strL "y") else none

/-- A string with two environment markers: the greedy prefix substitutes
only the last one, leaving the first marker in the output. -/
def dblMarker : Str := envMarkerCore (strL "A") ++ envMarkerCore (strL "B")

/-- C4 counterexample: this tree has no file includes at all (its include
graph is trivially a finite DAG), resolution terminates successfully, yet
the result still contains a string matching the environment grammar — the
first of the two markers survives because `CUSTOM_ENV_RE`'s greedy prefix
passes it through literally. -/
theorem C4_counterexample :
    update_context_recursively [] envAB false 1
        (.map [(strL "k", .str dblMarker)]) [] =
      .ok (.map [(strL "k",
        .str (envMarkerCore (strL "A") ++ strL "y"))]) ∧
    (envMatch (envMarkerCore (strL "A") ++ strL "y")).isSome = true := by
  constructor <;> decide

mutual

/-- The string scalars of a tree that the resolver processes: values of
mappings and sequences at any depth (a bare string at the root of a tree is
returned unchanged by `_update_context_recursively` and hence not listed). -/
def childStrs : Node → List Str
  | .map kvs => entryStrs kvs
  | .seq xs => itemStrs xs
  | _ => []

def entryStrs : List (Str × Node) → List Str
  | [] => []
  | (_, v) :: rest => valStrs v ++ entryStrs rest

def itemStrs : List Node → List Str
  | [] => []
  | v :: rest => valStrs v ++ itemStrs rest

def valStrs : Node → List Str
  | .str s => [s]
  | .map kvs => entryStrs kvs
  | .seq xs => itemStrs xs
  | _ => []

end

/-- A *tame* string scalar: either brace-free (a pure literal for both
grammars), or exactly a canonical file-include marker, or exactly one
canonical environment marker with a newline-free brace-free prefix and a
brace-free newline-free suffix. -/
def tameStr (s : Str) : Prop :=
  openB ∉ s ∨
  (∃ f, quoteChar ∉ f ∧ s = includeMarkerOf f) ∨
  (∃ p e q, nlChar ∉ p ∧ openB ∉ p ∧ openB ∉ e ∧ quoteChar ∉ e ∧
    openB ∉ q ∧ nlChar ∉ q ∧ s = p ++ envMarkerCore e ++ q)

mutual

/-- A tame tree: every processed string scalar is tame, every key and every
unprocessed root string is brace-free. -/
def tameNode : Node → Prop
  | .str s => openB ∉ s
  | .map kvs => tameEntries kvs
  | .seq xs => tameItems xs
  | _ => True

def tameEntries : List (Str × Node) → Prop
  | [] => True
  | (k, v) :: rest => openB ∉ k ∧ tameVal v ∧ tameEntries rest

def tameItems : List Node → Prop
  | [] => True
  | v :: rest => tameVal v ∧ tameItems rest

def tameVal : Node → Prop
  | .str s => tameStr s
  | .map kvs => tameEntries kvs
  | .seq xs => tameItems xs
  | _ => True

end

/-- A string on which neither marker grammar fires. -/
def markerFree (s : Str) : Prop := parseInclude s = none ∧ envMatch s = none

mutual

/-- A tree with zero remaining marker strings of either grammar. -/
def resolvedFree : Node → Prop
  | .str s => markerFree s
  | .map kvs => resolvedEntries kvs
  | .seq xs => resolvedItems xs
  | _ => True

def resolvedEntries : List (Str × Node) → Prop
  | [] => True
  | (k, v) :: rest => markerFree k ∧ resolvedFree v ∧ resolvedEntries rest

def resolvedItems : List Node → Prop
  | [] => True
  | v :: rest => resolvedFree v ∧ resolvedItems rest

end

theorem markerFree_of_braceFree {s : Str} (h : openB ∉ s) : markerFree s :=
  ⟨parseInclude_none_of_braceFree h, envMatch_none_of_braceFree h⟩

theorem dictLookup_mem : ∀ {l : List (Str × Node)} {k : Str} {v : Node},
    dictLookup l k = some v → (k, v) ∈ l := by
  intro l
  induction l with
  | nil => intro k v h; cases h
  | cons kv rest ih =>
    intro k v h
    obtain ⟨k0, v0⟩ := kv
    by_cases hk : k0 = k
    · subst hk
      rw [dictLookup, if_pos rfl] at h
      injection h with h
      subst h
      exact List.mem_cons_self _ _
    · rw [dictLookup, if_neg hk] at h
      exact List.mem_cons_of_mem _ (ih h)

theorem childStrs_subset_valStrs : ∀ (v : Node) {s : Str},
    s ∈ childStrs v → s ∈ valStrs v := by
  intro v s hs
  cases v <;> simp_all [childStrs, valStrs]

theorem update_ctx_scalar_str (fs : Fs) (env : EnvF) (strict : Bool)
    (fuel : Nat) (s : Str) (hist : List Str) :
    update_context_recursively fs env strict fuel (.str s) hist =
      .ok (.str s) := by
  rw [update_context_recursively_eq]
  simp [ctxGo]

/-- An upper bound for `h` on a list of strings. -/
def maxH (h : Str → Nat) : List Str → Nat
  | [] => 0
  | s :: rest => max (h s) (maxH h rest)

theorem le_maxH (h : Str → Nat) : ∀ {l : List Str} {s : Str}, s ∈ l →
    h s ≤ maxH h l := by
  intro l
  induction l with
  | nil => intro s hs; cases hs
  | cons t rest ih =>
    intro s hs
    rcases List.mem_cons.mp hs with h1 | h1
    · subst h1; exact le_max_left _ _
    · exact le_trans (ih h1) (le_max_right _ _)

theorem rdOf_succ (fs : Fs) (env : EnvF) (strict : Bool) (f : Nat) :
    rdOf fs env strict (f + 1) = update_context_recursively fs env strict f := rfl

theorem optWs_space {c : Char} (h : isPySpace c = true) (r : Str) :
    optWs (c :: r) = r := by
  simp [optWs, h]

theorem parseInclude_envCore_none (e q : Str) :
    parseInclude (envMarkerCore e ++ q) = none := by
  have h1 : envMarkerCore e ++ q =
      openB :: openB :: ' ' :: 'e' :: 'n' :: 'v' :: ' ' :: Char.ofNat 61 ::
        ' ' :: quoteChar :: (e ++ (quoteChar :: ' ' :: closeB :: closeB :: q)) := by
    simp [envMarkerCore, strL_env]
  rw [h1]
  simp only [parseInclude, expects_cons_self, expects_nil,
    Option.bind_eq_bind, Option.some_bind,
    optWs_space (show isPySpace ' ' = true from rfl), strL_file]
  rw [expects_cons_ne (show 'e' ≠ 'f' from by decide)]
  simp

theorem entriesGo_nil (fs : Fs) (env : EnvF) (strict : Bool)
    (rd : Node → List Str → Except Err Node) (hist : List Str) :
    entriesGo fs env strict rd [] hist = .ok [] := rfl

theorem entriesGo_cons (fs : Fs) (env : EnvF) (strict : Bool)
    (rd : Node → List Str → Except Err Node) (k : Str) (v : Node)
    (rest : List (Str × Node)) (hist : List Str) :
    entriesGo fs env strict rd ((k, v) :: rest) hist = (do
      let v' ← (match v with
        | .str s => update_single_step fs env strict rd s hist
        | other => ctxGo fs env strict rd other [])
      let rest' ← entriesGo fs env strict rd rest hist
      pure ((k, v') :: rest')) := by
  cases v <;> rfl

theorem itemsGo_nil (fs : Fs) (env : EnvF) (strict : Bool)
    (rd : Node → List Str → Except Err Node) (hist : List Str) :
    itemsGo fs env strict rd [] hist = .ok [] := rfl

theorem itemsGo_cons (fs : Fs) (env : EnvF) (strict : Bool)
    (rd : Node → List Str → Except Err Node) (v : Node)
    (rest : List Node) (hist : List Str) :
    itemsGo fs env strict rd (v :: rest) hist = (do
      let v' ← (match v with
        | .str s => update_single_step fs env strict rd s hist
        | other => ctxGo fs env strict rd other [])
      let rest' ← itemsGo fs env strict rd rest hist
      pure (v' :: rest')) := by
  cases v <;> rfl

/-- The inductive invariant for one processed string at a given fuel. -/
def StepOK (fs : Fs) (env : EnvF) (h : Str → Nat) (fuel : Nat) : Prop :=
  ∀ s hist, tameStr s → h s < fuel → (∀ t ∈ hist, h s < h t) →
    ∃ r, update_single_step fs env false (rdOf fs env false fuel) s hist =
      .ok r ∧ resolvedFree r

/-- The inductive invariant for a whole tree at a given fuel. -/
def CtxOK (fs : Fs) (env : EnvF) (h : Str → Nat) (fuel : Nat) : Prop :=
  ∀ n hist, tameNode n →
    (∀ s' ∈ childStrs n, h s' < fuel ∧ ∀ t ∈ hist, h s' < h t) →
    ∃ r, update_context_recursively fs env false fuel n hist = .ok r ∧
      resolvedFree r

theorem step_of_ctx (fs : Fs) (env : EnvF) (h : Str → Nat) (fuel : Nat)
    (Hfs : ∀ kv ∈ fs, tameNode kv.2)
    (Henv : ∀ e v, env e = some v → openB ∉ v)
    (Hdag : ∀ s f s', parseInclude s = some f →
      s' ∈ childStrs (load_yaml fs f) → h s' < h s)
    (HC : ∀ f', f' < fuel → CtxOK fs env h f') :
    StepOK fs env h fuel := by
  intro s hist htame hfuel hhist
  cases fuel with
  | zero => exact absurd hfuel (Nat.not_lt_zero _)
  | succ f =>
    have hnotmem : s ∉ hist := fun hmem => lt_irrefl _ (hhist s hmem)
    rw [tameStr] at htame
    rcases htame with hbf | ⟨f0, hq, rfl⟩ |
      ⟨p, e, q, hnp, hbp, hbe, hqe, hbq, hnq, rfl⟩
    · have hpi := parseInclude_none_of_braceFree hbf
      have hem := envMatch_none_of_braceFree hbf
      refine ⟨.str s, ?_, markerFree_of_braceFree hbf⟩
      simp only [update_single_step, if_neg hnotmem]
      simp only [process_variable, hpi, hem]
      rw [rdOf_succ]
      exact update_ctx_scalar_str fs env false f s (hist ++ [s])
    · have hpi : parseInclude (includeMarkerOf f0) = some f0 := by
        have h2 := parseInclude_marker hq ([] : Str)
        rwa [List.append_nil] at h2
      have htameF : tameNode (load_yaml fs f0) := by
        rw [load_yaml]
        cases hdl : dictLookup fs f0 with
        | none => simp [tameNode]
        | some n => exact Hfs (f0, n) (dictLookup_mem hdl)
      have hcond : ∀ s' ∈ childStrs (load_yaml fs f0),
          h s' < f ∧ ∀ t ∈ hist ++ [includeMarkerOf f0], h s' < h t := by
        intro s' hs'
        have hlt := Hdag _ _ _ hpi hs'
        constructor
        · omega
        · intro t ht
          rcases List.mem_append.mp ht with h1 | h1
          · exact lt_trans hlt (hhist t h1)
          · rw [List.mem_singleton.mp h1]
            exact hlt
      obtain ⟨r, hr, hfree⟩ := HC f (Nat.lt_succ_self f) (load_yaml fs f0)
        (hist ++ [includeMarkerOf f0]) htameF hcond
      refine ⟨r, ?_, hfree⟩
      simp only [update_single_step, if_neg hnotmem]
      simp only [process_variable, hpi]
      rw [rdOf_succ]
      exact hr
    · have hpi : parseInclude (p ++ envMarkerCore e ++ q) = none := by
        cases p with
        | nil =>
          rw [List.nil_append]
          exact parseInclude_envCore_none e q
        | cons c p' =>
          have hc : c ≠ openB := fun hcc => hbp (by simp [hcc])
          have hshape : (c :: p') ++ envMarkerCore e ++ q =
              c :: (p' ++ envMarkerCore e ++ q) := by simp
          rw [hshape]
          exact parseInclude_cons_ne hc _
      have hem := envMatch_canonical p hnp hbe hqe hbq hnq
      cases henv : env e with
      | some v =>
        have hbv := Henv e v henv
        have hbr : openB ∉ p ++ v ++ q := by
          intro hmem
          rcases List.mem_append.mp hmem with h1 | h1
          · rcases List.mem_append.mp h1 with h2 | h2
            · exact hbp h2
            · exact hbv h2
          · exact hbq h1
        refine ⟨.str (p ++ v ++ q), ?_, markerFree_of_braceFree hbr⟩
        simp only [update_single_step, if_neg hnotmem]
        simp only [process_variable, hpi, hem, henv]
        rw [rdOf_succ]
        exact update_ctx_scalar_str fs env false f _ _
      | none =>
        have hbr : openB ∉ p ++ q := by
          intro hmem
          rcases List.mem_append.mp hmem with h1 | h1
          · exact hbp h1
          · exact hbq h1
        refine ⟨.str (p ++ q), ?_, markerFree_of_braceFree hbr⟩
        simp only [update_single_step, if_neg hnotmem]
        simp only [process_variable, hpi, hem, henv, Bool.false_eq_true,
          if_false, ite_false]
        rw [rdOf_succ]
        exact update_ctx_scalar_str fs env false f _ _

theorem ctx_of_step (fs : Fs) (env : EnvF) (h : Str → Nat) (fuel : Nat)
    (HS : StepOK fs env h fuel) :
    CtxOK fs env h fuel := by
  have main : ∀ N,
      (∀ n : Node, sizeOf n < N → ∀ hist, tameNode n →
        (∀ s' ∈ childStrs n, h s' < fuel ∧ ∀ t ∈ hist, h s' < h t) →
        ∃ r, ctxGo fs env false (rdOf fs env false fuel) n hist = .ok r ∧
          resolvedFree r) ∧
      (∀ kvs : List (Str × Node), sizeOf kvs < N → ∀ hist, tameEntries kvs →
        (∀ s' ∈ entryStrs kvs, h s' < fuel ∧ ∀ t ∈ hist, h s' < h t) →
        ∃ rs, entriesGo fs env false (rdOf fs env false fuel) kvs hist =
          .ok rs ∧ resolvedEntries rs) ∧
      (∀ xs : List Node, sizeOf xs < N → ∀ hist, tameItems xs →
        (∀ s' ∈ itemStrs xs, h s' < fuel ∧ ∀ t ∈ hist, h s' < h t) →
        ∃ rs, itemsGo fs env false (rdOf fs env false fuel) xs hist =
          .ok rs ∧ resolvedItems rs) := by
    intro N
    induction N with
    | zero =>
      exact ⟨fun n hsz => absurd hsz (Nat.not_lt_zero _),
        fun kvs hsz => absurd hsz (Nat.not_lt_zero _),
        fun xs hsz => absurd hsz (Nat.not_lt_zero _)⟩
    | succ N ih =>
      obtain ⟨ihN, ihE, ihI⟩ := ih
      refine ⟨?_, ?_, ?_⟩
      · intro n hsz hist htame hcond
        cases n with
        | str s =>
          refine ⟨.str s, by simp [ctxGo], markerFree_of_braceFree htame⟩
        | int i => exact ⟨.int i, by simp [ctxGo], trivial⟩
        | bool b => exact ⟨.bool b, by simp [ctxGo], trivial⟩
        | null => exact ⟨.null, by simp [ctxGo], trivial⟩
        | seq xs =>
          have hszx : sizeOf xs < N := by
            have hx : sizeOf (Node.seq xs) = 1 + sizeOf xs := by simp
            omega
          obtain ⟨rs, hrs, hfree⟩ := ihI xs hszx hist htame hcond
          refine ⟨.seq rs, ?_, hfree⟩
          simp [ctxGo, hrs]
        | map kvs =>
          have hszx : sizeOf kvs < N := by
            have hx : sizeOf (Node.map kvs) = 1 + sizeOf kvs := by simp
            omega
          obtain ⟨rs, hrs, hfree⟩ := ihE kvs hszx hist htame hcond
          refine ⟨.map rs, ?_, hfree⟩
          simp [ctxGo, hrs]
      · intro kvs hsz hist htame hcond
        cases kvs with
        | nil => exact ⟨[], entriesGo_nil fs env false _ hist, trivial⟩
        | cons kv rest =>
          obtain ⟨k, v⟩ := kv
          simp only [tameEntries] at htame
          obtain ⟨hbk, htv, htrest⟩ := htame
          have hx : sizeOf ((k, v) :: rest) =
              1 + (1 + sizeOf k + sizeOf v) + sizeOf rest := by simp
          have hszrest : sizeOf rest < N := by omega
          have hszv : sizeOf v < N := by omega
          have hcondrest : ∀ s' ∈ entryStrs rest,
              h s' < fuel ∧ ∀ t ∈ hist, h s' < h t := by
            intro s' hs'
            exact hcond s' (List.mem_append.mpr (Or.inr hs'))
          obtain ⟨rs, hrs, hfreerest⟩ := ihE rest hszrest hist htrest hcondrest
          have hhead : ∃ r, (match v with
              | .str s => update_single_step fs env false
                  (rdOf fs env false fuel) s hist
              | other => ctxGo fs env false (rdOf fs env false fuel)
                  other []) = .ok r ∧ resolvedFree r := by
            cases v with
            | str s =>
              have hmem : s ∈ entryStrs ((k, Node.str s) :: rest) :=
                List.mem_append.mpr (Or.inl (by simp [valStrs]))
              obtain ⟨hf1, hf2⟩ := hcond s hmem
              exact HS s hist htv hf1 hf2
            | map kvs2 =>
              have hcond2 : ∀ s' ∈ childStrs (Node.map kvs2),
                  h s' < fuel ∧ ∀ t ∈ ([] : List Str), h s' < h t := by
                intro s' hs'
                refine ⟨?_, fun t ht => absurd ht (List.not_mem_nil t)⟩
                have hmem : s' ∈ entryStrs ((k, Node.map kvs2) :: rest) :=
                  List.mem_append.mpr
                    (Or.inl (childStrs_subset_valStrs _ hs'))
                exact (hcond s' hmem).1
              exact ihN (.map kvs2) hszv [] htv hcond2
            | seq xs2 =>
              have hcond2 : ∀ s' ∈ childStrs (Node.seq xs2),
                  h s' < fuel ∧ ∀ t ∈ ([] : List Str), h s' < h t := by
                intro s' hs'
                refine ⟨?_, fun t ht => absurd ht (List.not_mem_nil t)⟩
                have hmem : s' ∈ entryStrs ((k, Node.seq xs2) :: rest) :=
                  List.mem_append.mpr
                    (Or.inl (childStrs_subset_valStrs _ hs'))
                exact (hcond s' hmem).1
              exact ihN (.seq xs2) hszv [] htv hcond2
            | int i => exact ⟨.int i, by simp [ctxGo], trivial⟩
            | bool b => exact ⟨.bool b, by simp [ctxGo], trivial⟩
            | null => exact ⟨.null, by simp [ctxGo], trivial⟩
          obtain ⟨r, hr, hfreer⟩ := hhead
          refine ⟨(k, r) :: rs, ?_, ?_⟩
          · rw [entriesGo_cons, hr]
            simp [hrs]
          · exact ⟨markerFree_of_braceFree hbk, hfreer, hfreerest⟩
      · intro xs hsz hist htame hcond
        cases xs with
        | nil => exact ⟨[], itemsGo_nil fs env false _ hist, trivial⟩
        | cons v rest =>
          simp only [tameItems] at htame
          obtain ⟨htv, htrest⟩ := htame
          have hx : sizeOf (v :: rest) = 1 + sizeOf v + sizeOf rest := by simp
          have hszrest : sizeOf rest < N := by omega
          have hszv : sizeOf v < N := by omega
          have hcondrest : ∀ s' ∈ itemStrs rest,
              h s' < fuel ∧ ∀ t ∈ hist, h s' < h t := by
            intro s' hs'
            exact hcond s' (List.mem_append.mpr (Or.inr hs'))
          obtain ⟨rs, hrs, hfreerest⟩ := ihI rest hszrest hist htrest hcondrest
          have hhead : ∃ r, (match v with
              | .str s => update_single_step fs env false
                  (rdOf fs env false fuel) s hist
              | other => ctxGo fs env false (rdOf fs env false fuel)
                  other []) = .ok r ∧ resolvedFree r := by
            cases v with
            | str s =>
              have hmem : s ∈ itemStrs (Node.str s :: rest) :=
                List.mem_append.mpr (Or.inl (by simp [valStrs]))
              obtain ⟨hf1, hf2⟩ := hcond s hmem
              exact HS s hist htv hf1 hf2
            | map kvs2 =>
              have hcond2 : ∀ s' ∈ childStrs (Node.map kvs2),
                  h s' < fuel ∧ ∀ t ∈ ([] : List Str), h s' < h t := by
                intro s' hs'
                refine ⟨?_, fun t ht => absurd ht (List.not_mem_nil t)⟩
                have hmem : s' ∈ itemStrs (Node.map kvs2 :: rest) :=
                  List.mem_append.mpr
                    (Or.inl (childStrs_subset_valStrs _ hs'))
                exact (hcond s' hmem).1
              exact ihN (.map kvs2) hszv [] htv hcond2
            | seq xs2 =>
              have hcond2 : ∀ s' ∈ childStrs (Node.seq xs2),
                  h s' < fuel ∧ ∀ t ∈ ([] : List Str), h s' < h t := by
                intro s' hs'
                refine ⟨?_, fun t ht => absurd ht (List.not_mem_nil t)⟩
                have hmem : s' ∈ itemStrs (Node.seq xs2 :: rest) :=
                  List.mem_append.mpr
                    (Or.inl (childStrs_subset_valStrs _ hs'))
                exact (hcond s' hmem).1
              exact ihN (.seq xs2) hszv [] htv hcond2
            | int i => exact ⟨.int i, by simp [ctxGo], trivial⟩
            | bool b => exact ⟨.bool b, by simp [ctxGo], trivial⟩
            | null => exact ⟨.null, by simp [ctxGo], trivial⟩
          obtain ⟨r, hr, hfreer⟩ := hhead
          refine ⟨r :: rs, ?_, ?_⟩
          · rw [itemsGo_cons, hr]
            simp [hrs]
          · exact ⟨hfreer, hfreerest⟩
  intro n hist htame hcond
  obtain ⟨r, hr, hfree⟩ :=
    (main (sizeOf n + 1)).1 n (Nat.lt_succ_self _) hist htame hcond
  refine ⟨r, ?_, hfree⟩
  rw [update_context_recursively_eq]
  exact hr

theorem ctxOK_all (fs : Fs) (env : EnvF) (h : Str → Nat)
    (Hfs : ∀ kv ∈ fs, tameNode kv.2)
    (Henv : ∀ e v, env e = some v → openB ∉ v)
    (Hdag : ∀ s f s', parseInclude s = some f →
      s' ∈ childStrs (load_yaml fs f) → h s' < h s) :
    ∀ fuel, CtxOK fs env h fuel := by
  intro fuel
  induction fuel using Nat.strong_induction_on with
  | _ fuel ih =>
    exact ctx_of_step fs env h fuel
      (step_of_ctx fs env h fuel Hfs Henv Hdag (fun f' hf' => ih f' hf'))

/-- C4 (amended): for every input tree whose include-reference graph admits
a strictly decreasing rank (a finite DAG: every string reachable inside an
included file ranks strictly below the including marker), with strict mode
off, with every environment value brace-free, and with every string scalar
in the tree and in the filesystem tame (brace-free, or exactly a canonical
file-include marker, or exactly one canonical environment marker with
brace-free parts), resolution terminates successfully — in particular the
`InfiniteIncludeLoop` check never fires — and the resulting tree contains
zero remaining marker strings of either grammar. -/
theorem C4_dag_terminates_marker_free (fs : Fs) (env : EnvF) (tree : Node)
    (h : Str → Nat)
    (Hfs : ∀ kv ∈ fs, tameNode kv.2)
    (Henv : ∀ e v, env e = some v → openB ∉ v)
    (Hdag : ∀ s f s', parseInclude s = some f →
      s' ∈ childStrs (load_yaml fs f) → h s' < h s)
    (Htree : tameNode tree) :
    ∃ fuel r, update_context_recursively fs env false fuel tree [] = .ok r ∧
      resolvedFree r := by
  have hC := ctxOK_all fs env h Hfs Henv Hdag (maxH h (childStrs tree) + 1)
  obtain ⟨r, hr, hfree⟩ := hC tree [] Htree (fun s' hs' =>
    ⟨Nat.lt_succ_of_le (le_maxH h hs'),
     fun t ht => absurd ht (List.not_mem_nil t)⟩)
  exact ⟨maxH h (childStrs tree) + 1, r, hr, hfree⟩

def fsC4 : Fs := [(strL "f", .map [(strL "x", .str (strL "hi"))])]

def treeC4 : Node := .map [(strL "k", .str (includeMarkerOf (strL "f")))]

def rankC4 : Str → Nat := fun s =>
  match parseInclude s with
  | some _ => 1
  | none => 0

theorem C4_witness :
    ∃ fuel r, update_context_recursively fsC4 envNone false fuel treeC4 [] =
      .ok r ∧ resolvedFree r := by
  apply C4_dag_terminates_marker_free fsC4 envNone treeC4 rankC4
  · intro kv hkv
    rcases List.mem_singleton.mp hkv with rfl
    show tameNode (.map [(strL "x", .str (strL "hi"))])
    simp only [tameNode, tameEntries, tameVal, tameStr]
    refine ⟨by decide, Or.inl (by decide), trivial⟩
  · intro e v hv
    cases hv
  · intro s f s' hpf hs'
    have hrs : rankC4 s = 1 := by
      simp [rankC4, hpf]
    rw [hrs]
    by_cases hf : f = strL "f"
    · subst hf
      have hload : load_yaml fsC4 (strL "f") =
          .map [(strL "x", .str (strL "hi"))] := by decide
      rw [hload] at hs'
      simp only [childStrs, entryStrs, valStrs] at hs'
      rcases List.mem_singleton.mp (by simpa using hs') with rfl
      decide
    · have hload : load_yaml fsC4 f = .null := by
        rw [load_yaml]
        have hnone : dictLookup fsC4 f = none := by
          rw [show fsC4 = [(strL "f", .map [(strL "x", .str (strL "hi"))])]
            from rfl, dictLookup, if_neg (fun hh => hf hh.symm), dictLookup]
        rw [hnone]
      rw [hload] at hs'
      simp [childStrs] at hs'
  · show tameNode (.map [(strL "k", .str (includeMarkerOf (strL "f")))])
    simp only [tameNode, tameEntries, tameVal, tameStr]
    exact ⟨by decide, Or.inr (Or.inl ⟨strL "f", by decide, rfl⟩), trivial⟩
